import Mathlib

/-!
Verification of the shrub recursive-descent parser (src/parse.ts).

The parser is embedded shallowly: the token cursor is a `List Token`
consumed from the front, every parse rule is a function from a fuel
bound and a token list to `Option (Except String (result × rest))`,
where `none` means the fuel ran out (never happens for enough fuel, as
proved below), `some (.error e)` models a thrown SyntaxError and
`some (.ok (v, rest))` a successful parse leaving `rest` unconsumed.
-/

namespace Shrub

/-- Modelled from the spec: the token-kind enumeration of the external
Lexer (spec section 4.1); the Lexer module itself is not part of the
parsing source. Names follow the token types used by parse.ts. -/
inductive TT where
  | ident
  | bareAtom
  | quotedAtom
  | string
  | lParen
  | rParen
  | lBracket
  | rBracket
  | lCurly
  | rCurly
  | comma
  | colon
  | amp
  | eq
  | arrow
  | semi
  | letKw
  | matchKw
  | wildcard
deriving DecidableEq, Repr

/-- Modelled from the spec: a token of the external Lexer carries a type
tag and its raw text (spec section 4.1). -/
structure Token where
  type : TT
  text : String
deriving DecidableEq, Repr

/-- Modelled from the spec: `Lexer.expect` consumes the current token if
its type is among the allowed set and otherwise fails with a
SyntaxError; exhausted input is itself a SyntaxError (spec sections 4.1
and 7). -/
def expect (allowed : List TT) (ts : List Token) : Except String (Token × List Token) :=
  match ts with
  | [] => .error "unexpected end of input"
  | t :: rest => if t.type ∈ allowed then .ok (t, rest) else .error "unexpected token"

/-- The Pattern AST (interfaces TreePattern .. ListPattern in parse.ts). -/
inductive Pattern where
  | treePattern (functor : String) (children : List Pattern)
  | wildcardPattern
  | varPattern (text : String)
  | asPattern (name : String) (pattern : Pattern)
  | consPattern (head : Pattern) (tail : Pattern)
  | stringPattern (text : String)
  | listPattern (elts : List Pattern)

mutual
/-- The Term AST (interfaces TreeTerm .. MatchTerm in parse.ts). -/
inductive Term where
  | treeTerm (functor : String) (children : List Term)
  | varTerm (text : String)
  | appTerm (opName : String) (rands : List Term)
  | consTerm (head : Term) (tail : Term)
  | stringTerm (text : String)
  | listTerm (elts : List Term)
  | matchTerm (terms : List Term) (clauses : List MatchClause)

/-- MatchClause from parse.ts: patterns plus a body term. -/
inductive MatchClause where
  | mk (patterns : List Pattern) (body : Term)
end

/-- Def from parse.ts: a named definition with formal parameter patterns. -/
structure Def where
  name : String
  patterns : List Pattern
  body : Term

/-- Item = Def | Term (top-level program element). -/
inductive Item where
  | defItem (d : Def)
  | termItem (t : Term)

/-- One left-to-right pass replacing every occurrence of backslash
followed by `q` with the bare `q`, the semantics of the global regex
replace in getStringText. -/
def replaceEscQuote (q : Char) : List Char → List Char
  | [] => []
  | [c] => [c]
  | c1 :: c2 :: rest =>
    if c1 = '\\' ∧ c2 = q then q :: replaceEscQuote q rest
    else c1 :: replaceEscQuote q (c2 :: rest)

/-- getStringText from parse.ts: strip the surrounding quote characters
(first and last character of the raw text) and undo only the escape
sequence matching the original quote style. -/
def getStringText (text : String) : String :=
  let content := (text.data.drop 1).dropLast
  if text.data.head? = some '\'' then
    ⟨replaceEscQuote '\'' content⟩
  else
    ⟨replaceEscQuote '\"' content⟩

/-- Result of a fueled parse rule: `none` is fuel exhaustion,
`some (.error e)` a thrown SyntaxError, `some (.ok (v, rest))` success. -/
abbrev ParseRes (α : Type) := Option (Except String (α × List Token))

/-- The while loop of parseCommaSep in parse.ts: `elts` holds the
elements parsed so far; each iteration either stops before a stop
token, stops at end of input, or consumes a comma and (unless the list
ends) parses another element. -/
def parseCommaSepLoop {α : Type} (parseElt : List Token → ParseRes α) (stopSet : List TT) :
    Nat → List α → List Token → ParseRes (List α)
  | 0, _, _ => none
  | _ + 1, elts, [] => some (.ok (elts, []))
  | fuel + 1, elts, t :: rest =>
    if t.type ∈ stopSet then some (.ok (elts, t :: rest))
    else if t.type = TT.comma then
      match rest with
      | [] => some (.ok (elts, []))
      | t' :: _ =>
        if t'.type ∈ stopSet then some (.ok (elts, rest))
        else
          match parseElt rest with
          | none => none
          | some (.error e) => some (.error e)
          | some (.ok (x, r)) => parseCommaSepLoop parseElt stopSet fuel (elts ++ [x]) r
    else some (.error "unexpected token")

/-- parseCommaSep from parse.ts, generic over the element parser and the
stop-token set: empty input or a leading stop token gives the empty
list; otherwise one element is parsed and the loop takes over. -/
def parseCommaSep {α : Type} (parseElt : List Token → ParseRes α) (stopSet : List TT)
    (fuel : Nat) (ts : List Token) : ParseRes (List α) :=
  match ts with
  | [] => some (.ok ([], []))
  | t :: _ =>
    if t.type ∈ stopSet then some (.ok ([], ts))
    else
      match parseElt ts with
      | none => none
      | some (.error e) => some (.error e)
      | some (.ok (x, r)) => parseCommaSepLoop parseElt stopSet fuel [x] r

/-- Tail of parseTreeOrVarOrApp in parse.ts: given the consumed start
token, its (unescaped) text and the parsed argument list, build the
resulting Term. An identifier yields an AppTerm exactly when the
argument list is non-empty and a VarTerm otherwise; an atom always
yields a TreeTerm. -/
def finishTreeOrVarOrApp (start : Token) (text : String) (terms : List Term) : Term :=
  if start.type = TT.ident then
    if terms.length > 0 then Term.appTerm text terms
    else Term.varTerm text
  else Term.treeTerm text terms

mutual

/-- parseTerm from parse.ts: one Term1 followed by the cons-operator loop. -/
def parseTerm : Nat → List Token → ParseRes Term
  | 0, _ => none
  | fuel + 1, ts =>
    match parseTerm1 fuel ts with
    | none => none
    | some (.error e) => some (.error e)
    | some (.ok (t, r)) => parseTermLoop fuel t r

/-- The while loop of parseTerm in parse.ts: while the lookahead is a
colon, consume it and wrap the term so far and the recursively parsed
remainder in a ConsTerm. -/
def parseTermLoop : Nat → Term → List Token → ParseRes Term
  | 0, _, _ => none
  | _ + 1, term, [] => some (.ok (term, []))
  | fuel + 1, term, t :: rest =>
    if t.type = TT.colon then
      match parseTerm fuel rest with
      | none => none
      | some (.error e) => some (.error e)
      | some (.ok (tl, r)) => parseTermLoop fuel (Term.consTerm term tl) r
    else some (.ok (term, t :: rest))

/-- parseTerm1 from parse.ts: dispatch on the lookahead token type. -/
def parseTerm1 : Nat → List Token → ParseRes Term
  | 0, _ => none
  | fuel + 1, ts =>
    match ts with
    | [] => some (.error "unexpected end of input")
    | t :: rest =>
      if t.type ∈ [TT.bareAtom, TT.quotedAtom, TT.ident] then
        parseTreeOrVarOrApp fuel (t :: rest)
      else if t.type = TT.string then
        some (.ok (Term.stringTerm (getStringText t.text), rest))
      else if t.type = TT.lBracket then
        match parseCommaSep (fun us => parseTerm fuel us) [TT.rBracket] fuel rest with
        | none => none
        | some (.error e) => some (.error e)
        | some (.ok (elts, r)) =>
          match expect [TT.rBracket] r with
          | .error e => some (.error e)
          | .ok (_, r2) => some (.ok (Term.listTerm elts, r2))
      else if t.type = TT.lParen then
        match parseTerm fuel rest with
        | none => none
        | some (.error e) => some (.error e)
        | some (.ok (inner, r)) =>
          match expect [TT.rParen] r with
          | .error e => some (.error e)
          | .ok (_, r2) => some (.ok (inner, r2))
      else if t.type = TT.matchKw then
        parseMatchTerm fuel (t :: rest)
      else some (.error "expected a term")

/-- parseTreeOrVarOrApp from parse.ts: consume the start token (which
must be a bare atom, quoted atom or identifier), optionally parse a
parenthesized argument list, then build the node via
finishTreeOrVarOrApp. -/
def parseTreeOrVarOrApp : Nat → List Token → ParseRes Term
  | 0, _ => none
  | fuel + 1, ts =>
    match expect [TT.bareAtom, TT.quotedAtom, TT.ident] ts with
    | .error e => some (.error e)
    | .ok (start, r1) =>
      let text := if start.type = TT.quotedAtom then getStringText start.text else start.text
      match r1 with
      | t :: rest =>
        if t.type = TT.lParen then
          match parseCommaSep (fun us => parseTerm fuel us) [TT.rParen] fuel rest with
          | none => none
          | some (.error e) => some (.error e)
          | some (.ok (terms, r2)) =>
            match expect [TT.rParen] r2 with
            | .error e => some (.error e)
            | .ok (_, r3) => some (.ok (finishTreeOrVarOrApp start text terms, r3))
        else some (.ok (finishTreeOrVarOrApp start text [], t :: rest))
      | [] => some (.ok (finishTreeOrVarOrApp start text [], []))

/-- parseMatchTerm from parse.ts: the match keyword, comma-separated
subject terms up to the left curly, then comma-separated clauses up to
the right curly. -/
def parseMatchTerm : Nat → List Token → ParseRes Term
  | 0, _ => none
  | fuel + 1, ts =>
    match expect [TT.matchKw] ts with
    | .error e => some (.error e)
    | .ok (_, r1) =>
      match parseCommaSep (fun us => parseTerm fuel us) [TT.lCurly] fuel r1 with
      | none => none
      | some (.error e) => some (.error e)
      | some (.ok (terms, r2)) =>
        match expect [TT.lCurly] r2 with
        | .error e => some (.error e)
        | .ok (_, r3) =>
          match parseCommaSep (fun us => parseMatchClause fuel us) [TT.rCurly] fuel r3 with
          | none => none
          | some (.error e) => some (.error e)
          | some (.ok (clauses, r4)) =>
            match expect [TT.rCurly] r4 with
            | .error e => some (.error e)
            | .ok (_, r5) => some (.ok (Term.matchTerm terms clauses, r5))

/-- parseMatchClause from parse.ts: comma-separated patterns up to the
arrow, the arrow, then the body term. -/
def parseMatchClause : Nat → List Token → ParseRes MatchClause
  | 0, _ => none
  | fuel + 1, ts =>
    match parseCommaSep (fun us => parsePattern fuel us) [TT.arrow] fuel ts with
    | none => none
    | some (.error e) => some (.error e)
    | some (.ok (patterns, r1)) =>
      match expect [TT.arrow] r1 with
      | .error e => some (.error e)
      | .ok (_, r2) =>
        match parseTerm fuel r2 with
        | none => none
        | some (.error e) => some (.error e)
        | some (.ok (body, r3)) => some (.ok (MatchClause.mk patterns body, r3))

/-- parsePattern from parse.ts: one Pattern1 followed by the
cons-operator loop. -/
def parsePattern : Nat → List Token → ParseRes Pattern
  | 0, _ => none
  | fuel + 1, ts =>
    match parsePattern1 fuel ts with
    | none => none
    | some (.error e) => some (.error e)
    | some (.ok (p, r)) => parsePatternLoop fuel p r

/-- The while loop of parsePattern in parse.ts, mirroring parseTermLoop. -/
def parsePatternLoop : Nat → Pattern → List Token → ParseRes Pattern
  | 0, _, _ => none
  | _ + 1, pat, [] => some (.ok (pat, []))
  | fuel + 1, pat, t :: rest =>
    if t.type = TT.colon then
      match parsePattern fuel rest with
      | none => none
      | some (.error e) => some (.error e)
      | some (.ok (tl, r)) => parsePatternLoop fuel (Pattern.consPattern pat tl) r
    else some (.ok (pat, t :: rest))

/-- parsePattern1 from parse.ts: dispatch on the lookahead token type. -/
def parsePattern1 : Nat → List Token → ParseRes Pattern
  | 0, _ => none
  | fuel + 1, ts =>
    match ts with
    | [] => some (.error "unexpected end of input")
    | t :: rest =>
      if t.type ∈ [TT.bareAtom, TT.quotedAtom] then
        parseTreePattern fuel (t :: rest)
      else if t.type = TT.wildcard then
        some (.ok (Pattern.wildcardPattern, rest))
      else if t.type = TT.ident then
        parseVarOrAsPattern fuel (t :: rest)
      else if t.type = TT.string then
        some (.ok (Pattern.stringPattern (getStringText t.text), rest))
      else if t.type = TT.lBracket then
        match parseCommaSep (fun us => parsePattern fuel us) [TT.rBracket] fuel rest with
        | none => none
        | some (.error e) => some (.error e)
        | some (.ok (elts, r)) =>
          match expect [TT.rBracket] r with
          | .error e => some (.error e)
          | .ok (_, r2) => some (.ok (Pattern.listPattern elts, r2))
      else if t.type = TT.lParen then
        match parsePattern fuel rest with
        | none => none
        | some (.error e) => some (.error e)
        | some (.ok (inner, r)) =>
          match expect [TT.rParen] r with
          | .error e => some (.error e)
          | .ok (_, r2) => some (.ok (inner, r2))
      else some (.error "expected a pattern")

/-- parseTreePattern from parse.ts: the start token must be a bare or
quoted atom; an optional parenthesized child list follows; the result
is always a TreePattern. -/
def parseTreePattern : Nat → List Token → ParseRes Pattern
  | 0, _ => none
  | fuel + 1, ts =>
    match expect [TT.bareAtom, TT.quotedAtom] ts with
    | .error e => some (.error e)
    | .ok (start, r1) =>
      let text := if start.type = TT.quotedAtom then getStringText start.text else start.text
      match r1 with
      | t :: rest =>
        if t.type = TT.lParen then
          match parseCommaSep (fun us => parsePattern fuel us) [TT.rParen] fuel rest with
          | none => none
          | some (.error e) => some (.error e)
          | some (.ok (children, r2)) =>
            match expect [TT.rParen] r2 with
            | .error e => some (.error e)
            | .ok (_, r3) => some (.ok (Pattern.treePattern text children, r3))
        else some (.ok (Pattern.treePattern text [], t :: rest))
      | [] => some (.ok (Pattern.treePattern text [], []))

/-- parseVarOrAsPattern from parse.ts: consume the identifier; a
following at-sign makes it an AsPattern over a full parsePattern,
otherwise it is a VarPattern. -/
def parseVarOrAsPattern : Nat → List Token → ParseRes Pattern
  | 0, _ => none
  | fuel + 1, ts =>
    match expect [TT.ident] ts with
    | .error e => some (.error e)
    | .ok (start, r1) =>
      match r1 with
      | t :: rest =>
        if t.type = TT.amp then
          match parsePattern fuel rest with
          | none => none
          | some (.error e) => some (.error e)
          | some (.ok (p, r2)) => some (.ok (Pattern.asPattern start.text p, r2))
        else some (.ok (Pattern.varPattern start.text, t :: rest))
      | [] => some (.ok (Pattern.varPattern start.text, []))

/-- parseDef from parse.ts: the let keyword, the name, an optional
parenthesized parameter-pattern list, the equals sign, and the body. -/
def parseDef : Nat → List Token → ParseRes Def
  | 0, _ => none
  | fuel + 1, ts =>
    match expect [TT.letKw] ts with
    | .error e => some (.error e)
    | .ok (_, r1) =>
      match expect [TT.ident] r1 with
      | .error e => some (.error e)
      | .ok (nameTok, r2) =>
        match r2 with
        | t :: rest =>
          if t.type = TT.lParen then
            match parseCommaSep (fun us => parsePattern fuel us) [TT.rParen] fuel rest with
            | none => none
            | some (.error e) => some (.error e)
            | some (.ok (patterns, r3)) =>
              match expect [TT.rParen] r3 with
              | .error e => some (.error e)
              | .ok (_, r4) => parseDefRest fuel nameTok.text patterns r4
          else parseDefRest fuel nameTok.text [] (t :: rest)
        | [] => parseDefRest fuel nameTok.text [] []

/-- Tail of parseDef in parse.ts: expect the equals sign, parse the body
term and assemble the Def. -/
def parseDefRest : Nat → String → List Pattern → List Token → ParseRes Def
  | 0, _, _, _ => none
  | fuel + 1, name, patterns, ts =>
    match expect [TT.eq] ts with
    | .error e => some (.error e)
    | .ok (_, r1) =>
      match parseTerm fuel r1 with
      | none => none
      | some (.error e) => some (.error e)
      | some (.ok (body, r2)) => some (.ok (Def.mk name patterns body, r2))

/-- parseItem from parse.ts: a leading let keyword means a definition,
anything else a bare term. -/
def parseItem : Nat → List Token → ParseRes Item
  | 0, _ => none
  | fuel + 1, ts =>
    match ts with
    | [] => some (.error "unexpected end of input")
    | t :: _ =>
      if t.type = TT.letKw then
        match parseDef fuel ts with
        | none => none
        | some (.error e) => some (.error e)
        | some (.ok (d, r)) => some (.ok (Item.defItem d, r))
      else
        match parseTerm fuel ts with
        | none => none
        | some (.error e) => some (.error e)
        | some (.ok (t, r)) => some (.ok (Item.termItem t, r))

/-- parseProgram from parse.ts: while tokens remain, parse one item and
expect the statement terminator; the items are returned in input order. -/
def parseProgram : Nat → List Token → Option (Except String (List Item))
  | 0, _ => none
  | fuel + 1, ts =>
    match ts with
    | [] => some (.ok [])
    | _ :: _ =>
      match parseItem fuel ts with
      | none => none
      | some (.error e) => some (.error e)
      | some (.ok (it, r)) =>
        match expect [TT.semi] r with
        | .error e => some (.error e)
        | .ok (_, r2) =>
          match parseProgram fuel r2 with
          | none => none
          | some (.error e) => some (.error e)
          | some (.ok items) => some (.ok (it :: items))

end

/-! Basic facts about the token cursor. -/

theorem expect_eq_ok {allowed : List TT} {ts r : List Token} {t : Token}
    (h : expect allowed ts = .ok (t, r)) : ts = t :: r ∧ t.type ∈ allowed := by
  cases ts with
  | nil => simp [expect] at h
  | cons a as =>
    simp only [expect] at h
    split at h
    · simp only [Except.ok.injEq, Prod.mk.injEq] at h
      obtain ⟨h1, h2⟩ := h
      subst h1; subst h2
      exact ⟨rfl, by assumption⟩
    · simp at h

theorem expect_consume {allowed : List TT} {ts r : List Token} {t : Token}
    (h : expect allowed ts = .ok (t, r)) : r <:+ ts ∧ r.length < ts.length := by
  obtain ⟨h1, _⟩ := expect_eq_ok h
  subst h1
  exact ⟨List.suffix_cons t r, by simp⟩

/-! Generic facts about parseCommaSep, independent of the element parser. -/

theorem parseCommaSepLoop_stop {α : Type} {parseElt : List Token → ParseRes α}
    {stopSet : List TT} :
    ∀ {fuel : Nat} {acc es : List α} {ts r : List Token},
      parseCommaSepLoop parseElt stopSet fuel acc ts = some (.ok (es, r)) →
      r = [] ∨ ∃ t ts', r = t :: ts' ∧ t.type ∈ stopSet := by
  intro fuel
  induction fuel with
  | zero => intro acc es ts r h; simp [parseCommaSepLoop] at h
  | succ f ih =>
    intro acc es ts r h
    match ts with
    | [] =>
      simp only [parseCommaSepLoop, Option.some.injEq, Except.ok.injEq, Prod.mk.injEq] at h
      exact Or.inl h.2.symm
    | t :: rest =>
      simp only [parseCommaSepLoop] at h
      split at h
      · simp only [Option.some.injEq, Except.ok.injEq, Prod.mk.injEq] at h
        exact Or.inr ⟨t, rest, h.2.symm, by assumption⟩
      · split at h
        · split at h
          · simp only [Option.some.injEq, Except.ok.injEq, Prod.mk.injEq] at h
            exact Or.inl h.2.symm
          · rename_i t' rest'
            split at h
            · simp only [Option.some.injEq, Except.ok.injEq, Prod.mk.injEq] at h
              exact Or.inr ⟨t', rest', h.2.symm, by assumption⟩
            · split at h
              · simp at h
              · simp at h
              · exact ih h
        · simp at h

theorem parseCommaSep_stop {α : Type} {parseElt : List Token → ParseRes α}
    {stopSet : List TT} {fuel : Nat} {es : List α} {ts r : List Token}
    (h : parseCommaSep parseElt stopSet fuel ts = some (.ok (es, r))) :
    r = [] ∨ ∃ t ts', r = t :: ts' ∧ t.type ∈ stopSet := by
  match ts with
  | [] =>
    simp only [parseCommaSep, Option.some.injEq, Except.ok.injEq, Prod.mk.injEq] at h
    exact Or.inl h.2.symm
  | t :: rest =>
    simp only [parseCommaSep] at h
    split at h
    · simp only [Option.some.injEq, Except.ok.injEq, Prod.mk.injEq] at h
      exact Or.inr ⟨t, rest, h.2.symm, by assumption⟩
    · split at h
      · simp at h
      · simp at h
      · exact parseCommaSepLoop_stop h

theorem parseCommaSepLoop_suffix {α : Type} {parseElt : List Token → ParseRes α}
    {stopSet : List TT}
    (hsuf : ∀ us v r, parseElt us = some (.ok (v, r)) → r <:+ us ∧ r.length < us.length) :
    ∀ {fuel : Nat} {acc es : List α} {ts r : List Token},
      parseCommaSepLoop parseElt stopSet fuel acc ts = some (.ok (es, r)) → r <:+ ts := by
  intro fuel
  induction fuel with
  | zero => intro acc es ts r h; simp [parseCommaSepLoop] at h
  | succ f ih =>
    intro acc es ts r h
    cases ts with
    | nil =>
      simp only [parseCommaSepLoop, Option.some.injEq, Except.ok.injEq, Prod.mk.injEq] at h
      obtain ⟨-, h2⟩ := h
      subst h2
      exact List.nil_suffix
    | cons t rest =>
      simp only [parseCommaSepLoop] at h
      split at h
      · simp only [Option.some.injEq, Except.ok.injEq, Prod.mk.injEq] at h
        obtain ⟨-, h2⟩ := h
        subst h2
        exact List.suffix_refl _
      · split at h
        · split at h
          · simp only [Option.some.injEq, Except.ok.injEq, Prod.mk.injEq] at h
            obtain ⟨-, h2⟩ := h
            subst h2
            exact List.nil_suffix
          · split at h
            · simp only [Option.some.injEq, Except.ok.injEq, Prod.mk.injEq] at h
              obtain ⟨-, h2⟩ := h
              subst h2
              exact List.suffix_cons _ _
            · split at h
              · simp at h
              · simp at h
              · rename_i x r' heq
                exact ((ih h).trans (hsuf _ _ _ heq).1).trans (List.suffix_cons _ _)
        · simp at h

theorem parseCommaSep_suffix {α : Type} {parseElt : List Token → ParseRes α}
    {stopSet : List TT} {fuel : Nat} {es : List α} {ts r : List Token}
    (hsuf : ∀ us v r, parseElt us = some (.ok (v, r)) → r <:+ us ∧ r.length < us.length)
    (h : parseCommaSep parseElt stopSet fuel ts = some (.ok (es, r))) : r <:+ ts := by
  cases ts with
  | nil =>
    simp only [parseCommaSep, Option.some.injEq, Except.ok.injEq, Prod.mk.injEq] at h
    obtain ⟨-, h2⟩ := h
    subst h2
    exact List.nil_suffix
  | cons t rest =>
    simp only [parseCommaSep] at h
    split at h
    · simp only [Option.some.injEq, Except.ok.injEq, Prod.mk.injEq] at h
      obtain ⟨-, h2⟩ := h
      subst h2
      exact List.suffix_refl _
    · split at h
      · simp at h
      · simp at h
      · rename_i x r' heq
        exact (parseCommaSepLoop_suffix hsuf h).trans (hsuf _ _ _ heq).1

theorem parseCommaSepLoop_total {α : Type} {parseElt : List Token → ParseRes α}
    {stopSet : List TT} {N : Nat}
    (htot : ∀ us, us.length ≤ N → parseElt us ≠ none)
    (hcons : ∀ us v r, parseElt us = some (.ok (v, r)) → r.length < us.length) :
    ∀ {fuel : Nat} {acc : List α} {ts : List Token}, ts.length < fuel → ts.length ≤ N →
      parseCommaSepLoop parseElt stopSet fuel acc ts ≠ none := by
  intro fuel
  induction fuel with
  | zero => intro acc ts h1 _; omega
  | succ f ih =>
    intro acc ts h1 h2 h
    cases ts with
    | nil => simp [parseCommaSepLoop] at h
    | cons t rest =>
      simp only [parseCommaSepLoop] at h
      split at h
      · simp at h
      · split at h
        · split at h
          · simp at h
          · split at h
            · simp at h
            · split at h
              · rename_i t' rest' hstop heq
                refine htot _ ?_ heq
                simp only [List.length_cons] at h2 ⊢
                omega
              · simp at h
              · rename_i x r' heq
                have hr := hcons _ _ _ heq
                simp only [List.length_cons] at h1 h2 hr
                exact ih (by omega) (by omega) h
        · simp at h

theorem parseCommaSep_total {α : Type} {parseElt : List Token → ParseRes α}
    {stopSet : List TT} {N : Nat} {fuel : Nat} {ts : List Token}
    (htot : ∀ us, us.length ≤ N → parseElt us ≠ none)
    (hcons : ∀ us v r, parseElt us = some (.ok (v, r)) → r.length < us.length)
    (h1 : ts.length ≤ fuel) (h2 : ts.length ≤ N) :
    parseCommaSep parseElt stopSet fuel ts ≠ none := by
  intro h
  cases ts with
  | nil => simp [parseCommaSep] at h
  | cons t rest =>
    simp only [parseCommaSep] at h
    split at h
    · simp at h
    · split at h
      · rename_i heq
        exact htot _ h2 heq
      · simp at h
      · rename_i x r' heq
        have hr : r'.length < rest.length + 1 := by
          have := hcons _ _ _ heq
          simpa using this
        simp only [List.length_cons] at h1 h2
        exact parseCommaSepLoop_total htot hcons (by omega) (by omega) h

/-! Every parse rule consumes tokens from the front: on success the
remaining stream is a suffix of the input, and every rule that always
consumes at least one token leaves a strictly shorter remainder. Proved
for all the mutually recursive rules at once by induction on fuel. -/

theorem consume_all : ∀ f : Nat,
    (∀ ts v r, parseTerm f ts = some (.ok (v, r)) → r <:+ ts ∧ r.length < ts.length) ∧
    (∀ t0 ts v r, parseTermLoop f t0 ts = some (.ok (v, r)) → r <:+ ts) ∧
    (∀ ts v r, parseTerm1 f ts = some (.ok (v, r)) → r <:+ ts ∧ r.length < ts.length) ∧
    (∀ ts v r, parseTreeOrVarOrApp f ts = some (.ok (v, r)) → r <:+ ts ∧ r.length < ts.length) ∧
    (∀ ts v r, parseMatchTerm f ts = some (.ok (v, r)) → r <:+ ts ∧ r.length < ts.length) ∧
    (∀ ts v r, parseMatchClause f ts = some (.ok (v, r)) → r <:+ ts ∧ r.length < ts.length) ∧
    (∀ ts v r, parsePattern f ts = some (.ok (v, r)) → r <:+ ts ∧ r.length < ts.length) ∧
    (∀ p0 ts v r, parsePatternLoop f p0 ts = some (.ok (v, r)) → r <:+ ts) ∧
    (∀ ts v r, parsePattern1 f ts = some (.ok (v, r)) → r <:+ ts ∧ r.length < ts.length) ∧
    (∀ ts v r, parseTreePattern f ts = some (.ok (v, r)) → r <:+ ts ∧ r.length < ts.length) ∧
    (∀ ts v r, parseVarOrAsPattern f ts = some (.ok (v, r)) → r <:+ ts ∧ r.length < ts.length) ∧
    (∀ ts v r, parseDef f ts = some (.ok (v, r)) → r <:+ ts ∧ r.length < ts.length) ∧
    (∀ nm ps ts v r, parseDefRest f nm ps ts = some (.ok (v, r)) → r <:+ ts ∧ r.length < ts.length) ∧
    (∀ ts v r, parseItem f ts = some (.ok (v, r)) → r <:+ ts ∧ r.length < ts.length) := by
  intro f
  induction f with
  | zero =>
    refine ⟨?_, ?_, ?_, ?_, ?_, ?_, ?_, ?_, ?_, ?_, ?_, ?_, ?_, ?_⟩ <;>
      · intros
        rename_i h
        simp [parseTerm, parseTermLoop, parseTerm1, parseTreeOrVarOrApp, parseMatchTerm,
          parseMatchClause, parsePattern, parsePatternLoop, parsePattern1, parseTreePattern,
          parseVarOrAsPattern, parseDef, parseDefRest, parseItem] at h
  | succ f ih =>
    obtain ⟨ihTerm, ihTermLoop, ihTerm1, ihTree, ihMatch, ihClause, ihPat, ihPatLoop,
      ihPat1, ihTreePat, ihVarAs, ihDef, ihDefRest, ihItem⟩ := ih
    refine ⟨?_, ?_, ?_, ?_, ?_, ?_, ?_, ?_, ?_, ?_, ?_, ?_, ?_, ?_⟩
    · -- parseTerm
      intro ts v r h
      simp only [parseTerm] at h
      split at h
      · simp at h
      · simp at h
      · rename_i t1 r1 heq
        have h1 := ihTerm1 _ _ _ heq
        have h2 := ihTermLoop _ _ _ _ h
        exact ⟨h2.trans h1.1, lt_of_le_of_lt h2.length_le h1.2⟩
    · -- parseTermLoop
      intro t0 ts v r h
      cases ts with
      | nil =>
        simp only [parseTermLoop, Option.some.injEq, Except.ok.injEq, Prod.mk.injEq] at h
        obtain ⟨-, h2⟩ := h
        subst h2
        exact List.nil_suffix
      | cons t rest =>
        simp only [parseTermLoop] at h
        split at h
        · split at h
          · simp at h
          · simp at h
          · rename_i tl r' heq
            have h1 := ihTerm _ _ _ heq
            have h2 := ihTermLoop _ _ _ _ h
            exact ((h2.trans h1.1).trans (List.suffix_cons _ _))
        · simp only [Option.some.injEq, Except.ok.injEq, Prod.mk.injEq] at h
          obtain ⟨-, h2⟩ := h
          subst h2
          exact List.suffix_refl _
    · -- parseTerm1
      intro ts v r h
      cases ts with
      | nil => simp [parseTerm1] at h
      | cons t rest =>
        simp only [parseTerm1] at h
        split at h
        · exact ihTree _ _ _ h
        · split at h
          · simp only [Option.some.injEq, Except.ok.injEq, Prod.mk.injEq] at h
            obtain ⟨-, h2⟩ := h
            subst h2
            exact ⟨List.suffix_cons _ _, by simp⟩
          · split at h
            · split at h
              · simp at h
              · simp at h
              · rename_i elts r' heq
                split at h
                · simp at h
                · rename_i u r2 heq2
                  simp only [Option.some.injEq, Except.ok.injEq, Prod.mk.injEq] at h
                  obtain ⟨-, h2⟩ := h
                  subst h2
                  have hs1 := parseCommaSep_suffix ihTerm heq
                  have hs2 := expect_consume heq2
                  refine ⟨(hs2.1.trans hs1).trans (List.suffix_cons _ _), ?_⟩
                  have h3 := hs1.length_le
                  have h4 := hs2.2
                  simp only [List.length_cons]
                  omega
            · split at h
              · split at h
                · simp at h
                · simp at h
                · rename_i inner r' heq
                  split at h
                  · simp at h
                  · rename_i u r2 heq2
                    simp only [Option.some.injEq, Except.ok.injEq, Prod.mk.injEq] at h
                    obtain ⟨-, h2⟩ := h
                    subst h2
                    have hs1 := ihTerm _ _ _ heq
                    have hs2 := expect_consume heq2
                    refine ⟨(hs2.1.trans hs1.1).trans (List.suffix_cons _ _), ?_⟩
                    have h3 := hs1.2
                    have h4 := hs2.2
                    simp only [List.length_cons]
                    omega
              · split at h
                · exact ihMatch _ _ _ h
                · simp at h
    · -- parseTreeOrVarOrApp
      intro ts v r h
      simp only [parseTreeOrVarOrApp] at h
      split at h
      · simp at h
      · rename_i start r1 heq1
        obtain ⟨hts, -⟩ := expect_eq_ok heq1
        subst hts
        cases r1 with
        | nil =>
          simp only [Option.some.injEq, Except.ok.injEq, Prod.mk.injEq] at h
          obtain ⟨-, h2⟩ := h
          subst h2
          exact ⟨List.nil_suffix, by simp⟩
        | cons t rest =>
          simp only at h
          split at h
          · split at h
            · simp at h
            · simp at h
            · rename_i terms r2 heq2
              split at h
              · simp at h
              · rename_i u r3 heq3
                simp only [Option.some.injEq, Except.ok.injEq, Prod.mk.injEq] at h
                obtain ⟨-, h2⟩ := h
                subst h2
                have hs1 := parseCommaSep_suffix ihTerm heq2
                have hs2 := expect_consume heq3
                refine ⟨((hs2.1.trans hs1).trans (List.suffix_cons _ _)).trans
                  (List.suffix_cons _ _), ?_⟩
                have h3 := hs1.length_le
                have h4 := hs2.2
                simp only [List.length_cons]
                omega
          · simp only [Option.some.injEq, Except.ok.injEq, Prod.mk.injEq] at h
            obtain ⟨-, h2⟩ := h
            subst h2
            exact ⟨List.suffix_cons _ _, by simp⟩
    · -- parseMatchTerm
      intro ts v r h
      simp only [parseMatchTerm] at h
      split at h
      · simp at h
      · rename_i mt r1 heq1
        split at h
        · simp at h
        · simp at h
        · rename_i terms r2 heq2
          split at h
          · simp at h
          · rename_i u r3 heq3
            split at h
            · simp at h
            · simp at h
            · rename_i clauses r4 heq4
              split at h
              · simp at h
              · rename_i u2 r5 heq5
                simp only [Option.some.injEq, Except.ok.injEq, Prod.mk.injEq] at h
                obtain ⟨-, h2⟩ := h
                subst h2
                obtain ⟨hts, -⟩ := expect_eq_ok heq1
                subst hts
                have s2 := parseCommaSep_suffix ihTerm heq2
                have s3 := expect_consume heq3
                have s4 := parseCommaSep_suffix ihClause heq4
                have s5 := expect_consume heq5
                refine ⟨(((s5.1.trans s4).trans s3.1).trans s2).trans
                  (List.suffix_cons _ _), ?_⟩
                have l2 := s2.length_le
                have l3 := s3.2
                have l4 := s4.length_le
                have l5 := s5.2
                simp only [List.length_cons]
                omega
    · -- parseMatchClause
      intro ts v r h
      simp only [parseMatchClause] at h
      split at h
      · simp at h
      · simp at h
      · rename_i pats r1 heq1
        split at h
        · simp at h
        · rename_i u r2 heq2
          split at h
          · simp at h
          · simp at h
          · rename_i body r3 heq3
            simp only [Option.some.injEq, Except.ok.injEq, Prod.mk.injEq] at h
            obtain ⟨-, h2⟩ := h
            subst h2
            have s1 := parseCommaSep_suffix ihPat heq1
            have s2 := expect_consume heq2
            have s3 := ihTerm _ _ _ heq3
            refine ⟨(s3.1.trans s2.1).trans s1, ?_⟩
            have l1 := s1.length_le
            have l2 := s2.2
            have l3 := s3.2
            omega
    · -- parsePattern
      intro ts v r h
      simp only [parsePattern] at h
      split at h
      · simp at h
      · simp at h
      · rename_i p1 r1 heq
        have h1 := ihPat1 _ _ _ heq
        have h2 := ihPatLoop _ _ _ _ h
        exact ⟨h2.trans h1.1, lt_of_le_of_lt h2.length_le h1.2⟩
    · -- parsePatternLoop
      intro p0 ts v r h
      cases ts with
      | nil =>
        simp only [parsePatternLoop, Option.some.injEq, Except.ok.injEq, Prod.mk.injEq] at h
        obtain ⟨-, h2⟩ := h
        subst h2
        exact List.nil_suffix
      | cons t rest =>
        simp only [parsePatternLoop] at h
        split at h
        · split at h
          · simp at h
          · simp at h
          · rename_i tl r' heq
            have h1 := ihPat _ _ _ heq
            have h2 := ihPatLoop _ _ _ _ h
            exact ((h2.trans h1.1).trans (List.suffix_cons _ _))
        · simp only [Option.some.injEq, Except.ok.injEq, Prod.mk.injEq] at h
          obtain ⟨-, h2⟩ := h
          subst h2
          exact List.suffix_refl _
    · -- parsePattern1
      intro ts v r h
      cases ts with
      | nil => simp [parsePattern1] at h
      | cons t rest =>
        simp only [parsePattern1] at h
        split at h
        · exact ihTreePat _ _ _ h
        · split at h
          · simp only [Option.some.injEq, Except.ok.injEq, Prod.mk.injEq] at h
            obtain ⟨-, h2⟩ := h
            subst h2
            exact ⟨List.suffix_cons _ _, by simp⟩
          · split at h
            · exact ihVarAs _ _ _ h
            · split at h
              · simp only [Option.some.injEq, Except.ok.injEq, Prod.mk.injEq] at h
                obtain ⟨-, h2⟩ := h
                subst h2
                exact ⟨List.suffix_cons _ _, by simp⟩
              · split at h
                · split at h
                  · simp at h
                  · simp at h
                  · rename_i elts r' heq
                    split at h
                    · simp at h
                    · rename_i u r2 heq2
                      simp only [Option.some.injEq, Except.ok.injEq, Prod.mk.injEq] at h
                      obtain ⟨-, h2⟩ := h
                      subst h2
                      have hs1 := parseCommaSep_suffix ihPat heq
                      have hs2 := expect_consume heq2
                      refine ⟨(hs2.1.trans hs1).trans (List.suffix_cons _ _), ?_⟩
                      have h3 := hs1.length_le
                      have h4 := hs2.2
                      simp only [List.length_cons]
                      omega
                · split at h
                  · split at h
                    · simp at h
                    · simp at h
                    · rename_i inner r' heq
                      split at h
                      · simp at h
                      · rename_i u r2 heq2
                        simp only [Option.some.injEq, Except.ok.injEq, Prod.mk.injEq] at h
                        obtain ⟨-, h2⟩ := h
                        subst h2
                        have hs1 := ihPat _ _ _ heq
                        have hs2 := expect_consume heq2
                        refine ⟨(hs2.1.trans hs1.1).trans (List.suffix_cons _ _), ?_⟩
                        have h3 := hs1.2
                        have h4 := hs2.2
                        simp only [List.length_cons]
                        omega
                  · simp at h
    · -- parseTreePattern
      intro ts v r h
      simp only [parseTreePattern] at h
      split at h
      · simp at h
      · rename_i start r1 heq1
        obtain ⟨hts, -⟩ := expect_eq_ok heq1
        subst hts
        cases r1 with
        | nil =>
          simp only [Option.some.injEq, Except.ok.injEq, Prod.mk.injEq] at h
          obtain ⟨-, h2⟩ := h
          subst h2
          exact ⟨List.nil_suffix, by simp⟩
        | cons t rest =>
          simp only at h
          split at h
          · split at h
            · simp at h
            · simp at h
            · rename_i children r2 heq2
              split at h
              · simp at h
              · rename_i u r3 heq3
                simp only [Option.some.injEq, Except.ok.injEq, Prod.mk.injEq] at h
                obtain ⟨-, h2⟩ := h
                subst h2
                have hs1 := parseCommaSep_suffix ihPat heq2
                have hs2 := expect_consume heq3
                refine ⟨((hs2.1.trans hs1).trans (List.suffix_cons _ _)).trans
                  (List.suffix_cons _ _), ?_⟩
                have h3 := hs1.length_le
                have h4 := hs2.2
                simp only [List.length_cons]
                omega
          · simp only [Option.some.injEq, Except.ok.injEq, Prod.mk.injEq] at h
            obtain ⟨-, h2⟩ := h
            subst h2
            exact ⟨List.suffix_cons _ _, by simp⟩
    · -- parseVarOrAsPattern
      intro ts v r h
      simp only [parseVarOrAsPattern] at h
      split at h
      · simp at h
      · rename_i start r1 heq1
        obtain ⟨hts, -⟩ := expect_eq_ok heq1
        subst hts
        cases r1 with
        | nil =>
          simp only [Option.some.injEq, Except.ok.injEq, Prod.mk.injEq] at h
          obtain ⟨-, h2⟩ := h
          subst h2
          exact ⟨List.nil_suffix, by simp⟩
        | cons t rest =>
          simp only at h
          split at h
          · split at h
            · simp at h
            · simp at h
            · rename_i p r2 heq2
              simp only [Option.some.injEq, Except.ok.injEq, Prod.mk.injEq] at h
              obtain ⟨-, h2⟩ := h
              subst h2
              have s := ihPat _ _ _ heq2
              refine ⟨(s.1.trans (List.suffix_cons _ _)).trans (List.suffix_cons _ _), ?_⟩
              have := s.2
              simp only [List.length_cons]
              omega
          · simp only [Option.some.injEq, Except.ok.injEq, Prod.mk.injEq] at h
            obtain ⟨-, h2⟩ := h
            subst h2
            exact ⟨List.suffix_cons _ _, by simp⟩
    · -- parseDef
      intro ts v r h
      simp only [parseDef] at h
      split at h
      · simp at h
      · rename_i u1 r1 heq1
        split at h
        · simp at h
        · rename_i nameTok r2 heq2
          obtain ⟨hts, -⟩ := expect_eq_ok heq1
          subst hts
          obtain ⟨hr1, -⟩ := expect_eq_ok heq2
          subst hr1
          cases r2 with
          | nil =>
            have s := ihDefRest _ _ _ _ _ h
            have := s.2
            simp at this
          | cons t rest =>
            simp only at h
            split at h
            · split at h
              · simp at h
              · simp at h
              · rename_i pats r3 heq3
                split at h
                · simp at h
                · rename_i u2 r4 heq4
                  have s3 := parseCommaSep_suffix ihPat heq3
                  have s4 := expect_consume heq4
                  have s5 := ihDefRest _ _ _ _ _ h
                  refine ⟨((((s5.1.trans s4.1).trans s3).trans (List.suffix_cons _ _)).trans
                    (List.suffix_cons _ _)).trans (List.suffix_cons _ _), ?_⟩
                  have l3 := s3.length_le
                  have l4 := s4.2
                  have l5 := s5.2
                  simp only [List.length_cons]
                  omega
            · have s := ihDefRest _ _ _ _ _ h
              refine ⟨(s.1.trans (List.suffix_cons _ _)).trans (List.suffix_cons _ _), ?_⟩
              have hl := s.2
              simp only [List.length_cons] at hl ⊢
              omega
    · -- parseDefRest
      intro nm ps ts v r h
      simp only [parseDefRest] at h
      split at h
      · simp at h
      · rename_i u r1 heq1
        split at h
        · simp at h
        · simp at h
        · rename_i body r2 heq2
          simp only [Option.some.injEq, Except.ok.injEq, Prod.mk.injEq] at h
          obtain ⟨-, h2⟩ := h
          subst h2
          have s1 := expect_consume heq1
          have s2 := ihTerm _ _ _ heq2
          exact ⟨s2.1.trans s1.1, by have := s1.2; have := s2.2; omega⟩
    · -- parseItem
      intro ts v r h
      cases ts with
      | nil => simp [parseItem] at h
      | cons t rest =>
        simp only [parseItem] at h
        split at h
        · split at h
          · simp at h
          · simp at h
          · rename_i d r' heq
            simp only [Option.some.injEq, Except.ok.injEq, Prod.mk.injEq] at h
            obtain ⟨-, h2⟩ := h
            subst h2
            exact ihDef _ _ _ heq
        · split at h
          · simp at h
          · simp at h
          · rename_i tm r' heq
            simp only [Option.some.injEq, Except.ok.injEq, Prod.mk.injEq] at h
            obtain ⟨-, h2⟩ := h
            subst h2
            exact ihTerm _ _ _ heq

theorem parseTerm_consume (f : Nat) : ∀ ts v r,
    parseTerm f ts = some (.ok (v, r)) → r <:+ ts ∧ r.length < ts.length :=
  (consume_all f).1

theorem parseTermLoop_suffix (f : Nat) : ∀ t0 ts v r,
    parseTermLoop f t0 ts = some (.ok (v, r)) → r <:+ ts :=
  (consume_all f).2.1

theorem parseTerm1_consume (f : Nat) : ∀ ts v r,
    parseTerm1 f ts = some (.ok (v, r)) → r <:+ ts ∧ r.length < ts.length :=
  (consume_all f).2.2.1

theorem parseTreeOrVarOrApp_consume (f : Nat) : ∀ ts v r,
    parseTreeOrVarOrApp f ts = some (.ok (v, r)) → r <:+ ts ∧ r.length < ts.length :=
  (consume_all f).2.2.2.1

theorem parseMatchTerm_consume (f : Nat) : ∀ ts v r,
    parseMatchTerm f ts = some (.ok (v, r)) → r <:+ ts ∧ r.length < ts.length :=
  (consume_all f).2.2.2.2.1

theorem parseMatchClause_consume (f : Nat) : ∀ ts v r,
    parseMatchClause f ts = some (.ok (v, r)) → r <:+ ts ∧ r.length < ts.length :=
  (consume_all f).2.2.2.2.2.1

theorem parsePattern_consume (f : Nat) : ∀ ts v r,
    parsePattern f ts = some (.ok (v, r)) → r <:+ ts ∧ r.length < ts.length :=
  (consume_all f).2.2.2.2.2.2.1

theorem parsePatternLoop_suffix (f : Nat) : ∀ p0 ts v r,
    parsePatternLoop f p0 ts = some (.ok (v, r)) → r <:+ ts :=
  (consume_all f).2.2.2.2.2.2.2.1

theorem parsePattern1_consume (f : Nat) : ∀ ts v r,
    parsePattern1 f ts = some (.ok (v, r)) → r <:+ ts ∧ r.length < ts.length :=
  (consume_all f).2.2.2.2.2.2.2.2.1

theorem parseTreePattern_consume (f : Nat) : ∀ ts v r,
    parseTreePattern f ts = some (.ok (v, r)) → r <:+ ts ∧ r.length < ts.length :=
  (consume_all f).2.2.2.2.2.2.2.2.2.1

theorem parseVarOrAsPattern_consume (f : Nat) : ∀ ts v r,
    parseVarOrAsPattern f ts = some (.ok (v, r)) → r <:+ ts ∧ r.length < ts.length :=
  (consume_all f).2.2.2.2.2.2.2.2.2.2.1

theorem parseDef_consume (f : Nat) : ∀ ts v r,
    parseDef f ts = some (.ok (v, r)) → r <:+ ts ∧ r.length < ts.length :=
  (consume_all f).2.2.2.2.2.2.2.2.2.2.2.1

theorem parseDefRest_consume (f : Nat) : ∀ nm ps ts v r,
    parseDefRest f nm ps ts = some (.ok (v, r)) → r <:+ ts ∧ r.length < ts.length :=
  (consume_all f).2.2.2.2.2.2.2.2.2.2.2.2.1

theorem parseItem_consume (f : Nat) : ∀ ts v r,
    parseItem f ts = some (.ok (v, r)) → r <:+ ts ∧ r.length < ts.length :=
  (consume_all f).2.2.2.2.2.2.2.2.2.2.2.2.2

/-! With enough fuel no parse rule runs out: fuel `7 * length + rank`
always suffices, where `rank` bounds the depth of same-length call
chains. Together with consume_all this shows the parser always
terminates with a result (success or SyntaxError) on every finite
token stream. -/

theorem total_all : ∀ f : Nat,
    (∀ ts, 7 * ts.length + 3 ≤ f → parseTerm f ts ≠ none) ∧
    (∀ t0 ts, 7 * ts.length + 3 ≤ f → parseTermLoop f t0 ts ≠ none) ∧
    (∀ ts, 7 * ts.length + 2 ≤ f → parseTerm1 f ts ≠ none) ∧
    (∀ ts, 7 * ts.length + 1 ≤ f → parseTreeOrVarOrApp f ts ≠ none) ∧
    (∀ ts, 7 * ts.length + 1 ≤ f → parseMatchTerm f ts ≠ none) ∧
    (∀ ts, 7 * ts.length + 4 ≤ f → parseMatchClause f ts ≠ none) ∧
    (∀ ts, 7 * ts.length + 3 ≤ f → parsePattern f ts ≠ none) ∧
    (∀ p0 ts, 7 * ts.length + 3 ≤ f → parsePatternLoop f p0 ts ≠ none) ∧
    (∀ ts, 7 * ts.length + 2 ≤ f → parsePattern1 f ts ≠ none) ∧
    (∀ ts, 7 * ts.length + 1 ≤ f → parseTreePattern f ts ≠ none) ∧
    (∀ ts, 7 * ts.length + 1 ≤ f → parseVarOrAsPattern f ts ≠ none) ∧
    (∀ ts, 7 * ts.length + 3 ≤ f → parseDef f ts ≠ none) ∧
    (∀ nm ps ts, 7 * ts.length + 3 ≤ f → parseDefRest f nm ps ts ≠ none) ∧
    (∀ ts, 7 * ts.length + 4 ≤ f → parseItem f ts ≠ none) ∧
    (∀ ts, 7 * ts.length + 5 ≤ f → parseProgram f ts ≠ none) := by
  intro f
  induction f with
  | zero =>
    refine ⟨?_, ?_, ?_, ?_, ?_, ?_, ?_, ?_, ?_, ?_, ?_, ?_, ?_, ?_, ?_⟩ <;>
      · intros
        rename_i hb h
        omega
  | succ f ih =>
    obtain ⟨ihTerm, ihTermLoop, ihTerm1, ihTree, ihMatch, ihClause, ihPat, ihPatLoop,
      ihPat1, ihTreePat, ihVarAs, ihDef, ihDefRest, ihItem, ihProgram⟩ := ih
    refine ⟨?_, ?_, ?_, ?_, ?_, ?_, ?_, ?_, ?_, ?_, ?_, ?_, ?_, ?_, ?_⟩
    · -- parseTerm
      intro ts hb h
      simp only [parseTerm] at h
      split at h
      · rename_i heq
        exact ihTerm1 _ (by omega) heq
      · simp at h
      · rename_i t1 r1 heq
        have hc := parseTerm1_consume f _ _ _ heq
        refine ihTermLoop _ _ ?_ h
        have := hc.2
        omega
    · -- parseTermLoop
      intro t0 ts hb h
      cases ts with
      | nil => simp [parseTermLoop] at h
      | cons t rest =>
        simp only [parseTermLoop] at h
        split at h
        · split at h
          · rename_i heq
            refine ihTerm _ ?_ heq
            simp only [List.length_cons] at hb
            omega
          · simp at h
          · rename_i tl r' heq
            have hc := parseTerm_consume f _ _ _ heq
            refine ihTermLoop _ _ ?_ h
            have := hc.2
            simp only [List.length_cons] at hb this
            omega
        · simp at h
    · -- parseTerm1
      intro ts hb h
      cases ts with
      | nil => simp [parseTerm1] at h
      | cons t rest =>
        simp only [parseTerm1] at h
        split at h
        · exact ihTree _ (by omega) h
        · split at h
          · simp at h
          · split at h
            · split at h
              · rename_i heq
                refine parseCommaSep_total (N := rest.length) ?_ ?_ ?_ ?_ heq
                · intro us hus
                  refine ihTerm _ ?_
                  simp only [List.length_cons] at hb
                  omega
                · intro us v r hh
                  exact (parseTerm_consume f _ _ _ hh).2
                · simp only [List.length_cons] at hb
                  omega
                · omega
              · simp at h
              · rename_i elts r' heq
                split at h
                · simp at h
                · simp at h
            · split at h
              · split at h
                · rename_i heq
                  refine ihTerm _ ?_ heq
                  simp only [List.length_cons] at hb
                  omega
                · simp at h
                · rename_i inner r' heq
                  split at h
                  · simp at h
                  · simp at h
              · split at h
                · exact ihMatch _ (by omega) h
                · simp at h
    · -- parseTreeOrVarOrApp
      intro ts hb h
      simp only [parseTreeOrVarOrApp] at h
      split at h
      · simp at h
      · rename_i start r1 heq1
        obtain ⟨hts, -⟩ := expect_eq_ok heq1
        subst hts
        cases r1 with
        | nil => simp at h
        | cons t rest =>
          simp only at h
          split at h
          · split at h
            · rename_i heq
              refine parseCommaSep_total (N := rest.length) ?_ ?_ ?_ ?_ heq
              · intro us hus
                refine ihTerm _ ?_
                simp only [List.length_cons] at hb
                omega
              · intro us v r hh
                exact (parseTerm_consume f _ _ _ hh).2
              · simp only [List.length_cons] at hb
                omega
              · omega
            · simp at h
            · rename_i terms r2 heq2
              split at h
              · simp at h
              · simp at h
          · simp at h
    · -- parseMatchTerm
      intro ts hb h
      simp only [parseMatchTerm] at h
      split at h
      · simp at h
      · rename_i mt r1 heq1
        obtain ⟨hts, -⟩ := expect_eq_ok heq1
        subst hts
        split at h
        · rename_i heq
          refine parseCommaSep_total (N := r1.length) ?_ ?_ ?_ ?_ heq
          · intro us hus
            refine ihTerm _ ?_
            simp only [List.length_cons] at hb
            omega
          · intro us v r hh
            exact (parseTerm_consume f _ _ _ hh).2
          · simp only [List.length_cons] at hb
            omega
          · omega
        · simp at h
        · rename_i terms r2 heq2
          have s2 := parseCommaSep_suffix (parseTerm_consume f) heq2
          split at h
          · simp at h
          · rename_i u r3 heq3
            have s3 := expect_consume heq3
            split at h
            · rename_i heq4
              refine parseCommaSep_total (N := r3.length) ?_ ?_ ?_ ?_ heq4
              · intro us hus
                refine ihClause _ ?_
                have l2 := s2.length_le
                have l3 := s3.2
                simp only [List.length_cons] at hb
                omega
              · intro us v r hh
                exact (parseMatchClause_consume f _ _ _ hh).2
              · have l2 := s2.length_le
                have l3 := s3.2
                simp only [List.length_cons] at hb
                omega
              · omega
            · simp at h
            · rename_i clauses r4 heq4
              split at h
              · simp at h
              · simp at h
    · -- parseMatchClause
      intro ts hb h
      simp only [parseMatchClause] at h
      split at h
      · rename_i heq
        refine parseCommaSep_total (N := ts.length) ?_ ?_ ?_ ?_ heq
        · intro us hus
          exact ihPat _ (by omega)
        · intro us v r hh
          exact (parsePattern_consume f _ _ _ hh).2
        · omega
        · omega
      · simp at h
      · rename_i pats r1 heq1
        have s1 := parseCommaSep_suffix (parsePattern_consume f) heq1
        split at h
        · simp at h
        · rename_i u r2 heq2
          have s2 := expect_consume heq2
          split at h
          · rename_i heq3
            refine ihTerm _ ?_ heq3
            have l1 := s1.length_le
            have l2 := s2.2
            omega
          · simp at h
          · rename_i body r3 heq3
            simp at h
    · -- parsePattern
      intro ts hb h
      simp only [parsePattern] at h
      split at h
      · rename_i heq
        exact ihPat1 _ (by omega) heq
      · simp at h
      · rename_i p1 r1 heq
        have hc := parsePattern1_consume f _ _ _ heq
        refine ihPatLoop _ _ ?_ h
        have := hc.2
        omega
    · -- parsePatternLoop
      intro p0 ts hb h
      cases ts with
      | nil => simp [parsePatternLoop] at h
      | cons t rest =>
        simp only [parsePatternLoop] at h
        split at h
        · split at h
          · rename_i heq
            refine ihPat _ ?_ heq
            simp only [List.length_cons] at hb
            omega
          · simp at h
          · rename_i tl r' heq
            have hc := parsePattern_consume f _ _ _ heq
            refine ihPatLoop _ _ ?_ h
            have := hc.2
            simp only [List.length_cons] at hb this
            omega
        · simp at h
    · -- parsePattern1
      intro ts hb h
      cases ts with
      | nil => simp [parsePattern1] at h
      | cons t rest =>
        simp only [parsePattern1] at h
        split at h
        · exact ihTreePat _ (by omega) h
        · split at h
          · simp at h
          · split at h
            · exact ihVarAs _ (by omega) h
            · split at h
              · simp at h
              · split at h
                · split at h
                  · rename_i heq
                    refine parseCommaSep_total (N := rest.length) ?_ ?_ ?_ ?_ heq
                    · intro us hus
                      refine ihPat _ ?_
                      simp only [List.length_cons] at hb
                      omega
                    · intro us v r hh
                      exact (parsePattern_consume f _ _ _ hh).2
                    · simp only [List.length_cons] at hb
                      omega
                    · omega
                  · simp at h
                  · rename_i elts r' heq
                    split at h
                    · simp at h
                    · simp at h
                · split at h
                  · split at h
                    · rename_i heq
                      refine ihPat _ ?_ heq
                      simp only [List.length_cons] at hb
                      omega
                    · simp at h
                    · rename_i inner r' heq
                      split at h
                      · simp at h
                      · simp at h
                  · simp at h
    · -- parseTreePattern
      intro ts hb h
      simp only [parseTreePattern] at h
      split at h
      · simp at h
      · rename_i start r1 heq1
        obtain ⟨hts, -⟩ := expect_eq_ok heq1
        subst hts
        cases r1 with
        | nil => simp at h
        | cons t rest =>
          simp only at h
          split at h
          · split at h
            · rename_i heq
              refine parseCommaSep_total (N := rest.length) ?_ ?_ ?_ ?_ heq
              · intro us hus
                refine ihPat _ ?_
                simp only [List.length_cons] at hb
                omega
              · intro us v r hh
                exact (parsePattern_consume f _ _ _ hh).2
              · simp only [List.length_cons] at hb
                omega
              · omega
            · simp at h
            · rename_i children r2 heq2
              split at h
              · simp at h
              · simp at h
          · simp at h
    · -- parseVarOrAsPattern
      intro ts hb h
      simp only [parseVarOrAsPattern] at h
      split at h
      · simp at h
      · rename_i start r1 heq1
        obtain ⟨hts, -⟩ := expect_eq_ok heq1
        subst hts
        cases r1 with
        | nil => simp at h
        | cons t rest =>
          simp only at h
          split at h
          · split at h
            · rename_i heq
              refine ihPat _ ?_ heq
              simp only [List.length_cons] at hb
              omega
            · simp at h
            · rename_i p r2 heq2
              simp at h
          · simp at h
    · -- parseDef
      intro ts hb h
      simp only [parseDef] at h
      split at h
      · simp at h
      · rename_i u1 r1 heq1
        split at h
        · simp at h
        · rename_i nameTok r2 heq2
          obtain ⟨hts, -⟩ := expect_eq_ok heq1
          subst hts
          obtain ⟨hr1, -⟩ := expect_eq_ok heq2
          subst hr1
          cases r2 with
          | nil =>
            refine ihDefRest _ _ _ ?_ h
            simp only [List.length_cons] at hb
            simp only [List.length_nil]
            omega
          | cons t rest =>
            simp only at h
            split at h
            · split at h
              · rename_i heq3
                refine parseCommaSep_total (N := rest.length) ?_ ?_ ?_ ?_ heq3
                · intro us hus
                  refine ihPat _ ?_
                  simp only [List.length_cons] at hb
                  omega
                · intro us v r hh
                  exact (parsePattern_consume f _ _ _ hh).2
                · simp only [List.length_cons] at hb
                  omega
                · omega
              · simp at h
              · rename_i pats r3 heq3
                have s3 := parseCommaSep_suffix (parsePattern_consume f) heq3
                split at h
                · simp at h
                · rename_i u2 r4 heq4
                  have s4 := expect_consume heq4
                  refine ihDefRest _ _ _ ?_ h
                  have l3 := s3.length_le
                  have l4 := s4.2
                  simp only [List.length_cons] at hb
                  omega
            · refine ihDefRest _ _ _ ?_ h
              simp only [List.length_cons] at hb ⊢
              omega
    · -- parseDefRest
      intro nm ps ts hb h
      simp only [parseDefRest] at h
      split at h
      · simp at h
      · rename_i u r1 heq1
        obtain ⟨hts, -⟩ := expect_eq_ok heq1
        subst hts
        split at h
        · rename_i heq2
          refine ihTerm _ ?_ heq2
          simp only [List.length_cons] at hb
          omega
        · simp at h
        · rename_i body r2 heq2
          simp at h
    · -- parseItem
      intro ts hb h
      cases ts with
      | nil => simp [parseItem] at h
      | cons t rest =>
        simp only [parseItem] at h
        split at h
        · split at h
          · rename_i heq
            exact ihDef _ (by omega) heq
          · simp at h
          · simp at h
        · split at h
          · rename_i heq
            exact ihTerm _ (by omega) heq
          · simp at h
          · simp at h
    · -- parseProgram
      intro ts hb h
      cases ts with
      | nil => simp [parseProgram] at h
      | cons t rest =>
        simp only [parseProgram] at h
        split at h
        · rename_i heq
          exact ihItem _ (by omega) heq
        · simp at h
        · rename_i it r1 heq1
          have s1 := parseItem_consume f _ _ _ heq1
          split at h
          · simp at h
          · rename_i u r2 heq2
            have s2 := expect_consume heq2
            split at h
            · rename_i heq3
              refine ihProgram _ ?_ heq3
              have l1 := s1.2
              have l2 := s2.2
              simp only [List.length_cons] at hb l1
              omega
            · simp at h
            · simp at h

theorem parseProgram_total (ts : List Token) :
    parseProgram (7 * ts.length + 5) ts ≠ none :=
  (total_all (7 * ts.length + 5)).2.2.2.2.2.2.2.2.2.2.2.2.2.2 ts (le_refl _)

/-! Shape facts used by the claim theorems. -/

theorem parseDefRest_shape : ∀ (f : Nat) (nm : String) (ps : List Pattern) (ts : List Token)
    (v : Def) (r : List Token), parseDefRest f nm ps ts = some (.ok (v, r)) →
    v.name = nm ∧ v.patterns = ps := by
  intro f nm ps ts v r h
  cases f with
  | zero => simp [parseDefRest] at h
  | succ f =>
    simp only [parseDefRest] at h
    split at h
    · simp at h
    · split at h
      · simp at h
      · simp at h
      · simp only [Option.some.injEq, Except.ok.injEq, Prod.mk.injEq] at h
        obtain ⟨h1, -⟩ := h
        subst h1
        exact ⟨rfl, rfl⟩

theorem replaceEscQuote_of_not_mem (q : Char) :
    ∀ cs : List Char, '\\' ∉ cs → replaceEscQuote q cs = cs := by
  intro cs
  induction cs with
  | nil => intro _; rfl
  | cons c cs ih =>
    intro hmem
    cases cs with
    | nil => rfl
    | cons c2 rest =>
      have hc : c ≠ '\\' := by
        intro hc
        exact hmem (by simp [hc])
      have : ¬(c = '\\' ∧ c2 = q) := by
        intro hcontra
        exact hc hcontra.1
      rw [replaceEscQuote, if_neg this]
      congr 1
      exact ih (by intro hm; exact hmem (List.mem_cons_of_mem c hm))

/-- Claim C1 (corrected, counterexample): on the token stream of `f()`,
an identifier immediately followed by a parenthesized but empty
argument list, parseTreeOrVarOrApp returns a VarTerm, not the AppTerm
the claim demands. -/
theorem c1_counterexample :
    parseTreeOrVarOrApp 9 [⟨TT.ident, "f"⟩, ⟨TT.lParen, "("⟩, ⟨TT.rParen, ")"⟩] =
      some (.ok (Term.varTerm "f", [])) := rfl

/-- Claim C1 (amended): an identifier not followed by `(` always parses
to a VarTerm; an identifier-headed parse can only return a VarTerm or
an AppTerm with a non-empty argument list (so `f()` is a VarTerm and
AppTerm arises exactly from a non-empty argument list); an identifier
applied to one argument parses to that AppTerm. -/
theorem c1_ident_dispatch :
    (∀ (f : Nat) (tok : Token) (rest : List Token), tok.type = TT.ident →
      rest.head?.map Token.type ≠ some TT.lParen →
      parseTreeOrVarOrApp (f + 1) (tok :: rest) = some (.ok (Term.varTerm tok.text, rest))) ∧
    (∀ (f : Nat) (ts : List Token) (v : Term) (r : List Token) (tok : Token),
      tok.type = TT.ident →
      parseTreeOrVarOrApp f (tok :: ts) = some (.ok (v, r)) →
      v = Term.varTerm tok.text ∨
        ∃ rands, rands ≠ [] ∧ v = Term.appTerm tok.text rands) ∧
    (∀ a x : String, parseTreeOrVarOrApp 9
      [⟨TT.ident, a⟩, ⟨TT.lParen, "("⟩, ⟨TT.ident, x⟩, ⟨TT.rParen, ")"⟩] =
      some (.ok (Term.appTerm a [Term.varTerm x], []))) := by
  refine ⟨?_, ?_, ?_⟩
  · intro f tok rest htype hnp
    cases rest with
    | nil => simp [parseTreeOrVarOrApp, expect, finishTreeOrVarOrApp, htype]
    | cons t rest' =>
      have ht : t.type ≠ TT.lParen := by simpa using hnp
      simp [parseTreeOrVarOrApp, expect, finishTreeOrVarOrApp, htype, ht]
  · intro f ts v r tok htype h
    cases f with
    | zero => simp [parseTreeOrVarOrApp] at h
    | succ f =>
      simp only [parseTreeOrVarOrApp] at h
      split at h
      · simp at h
      · rename_i start r1 heq1
        obtain ⟨hts, -⟩ := expect_eq_ok heq1
        injection hts with h1 h2
        subst h1
        subst h2
        cases ts with
        | nil =>
          simp only [finishTreeOrVarOrApp, htype] at h
          simp at h
          exact Or.inl h.1.symm
        | cons t rest =>
          simp only at h
          split at h
          · split at h
            · simp at h
            · simp at h
            · rename_i terms r2 heq2
              split at h
              · simp at h
              · rename_i u r3 heq3
                cases terms with
                | nil =>
                  simp only [finishTreeOrVarOrApp, htype] at h
                  simp at h
                  exact Or.inl h.1.symm
                | cons x xs =>
                  simp only [finishTreeOrVarOrApp, htype] at h
                  simp at h
                  exact Or.inr ⟨x :: xs, by simp, h.1.symm⟩
          · simp only [finishTreeOrVarOrApp, htype] at h
            simp at h
            exact Or.inl h.1.symm
  · intro a x
    rfl

/-- Claim C2 (corrected, counterexample): the definition
`let f ( ) = x` has a parenthesized (empty) parameter list after the
name, yet parseDef returns it with an empty patterns field, identical
to `let f = x`; so emptiness of patterns is not equivalent to the
absence of a parameter list. -/
theorem c2_counterexample :
    parseDef 9 [⟨TT.letKw, "let"⟩, ⟨TT.ident, "f"⟩, ⟨TT.lParen, "("⟩, ⟨TT.rParen, ")"⟩,
      ⟨TT.eq, "="⟩, ⟨TT.ident, "x"⟩] =
      some (.ok (Def.mk "f" [] (Term.varTerm "x"), [])) := rfl

/-- Claim C2 (amended): patterns is empty whenever no parenthesized
parameter list follows the name, but an empty parenthesized list also
yields empty patterns, so `let f() = x` and `let f = x` produce the
same Def and are not distinguishable by the patterns field; a
non-empty parameter list does produce non-empty patterns. -/
theorem c2_patterns_empty :
    (∀ (f : Nat) (tok nameTok : Token) (rest : List Token) (v : Def) (r : List Token),
      rest.head?.map Token.type ≠ some TT.lParen →
      parseDef f (tok :: nameTok :: rest) = some (.ok (v, r)) → v.patterns = []) ∧
    (parseDef 9 [⟨TT.letKw, "let"⟩, ⟨TT.ident, "f"⟩, ⟨TT.lParen, "("⟩, ⟨TT.rParen, ")"⟩,
        ⟨TT.eq, "="⟩, ⟨TT.ident, "x"⟩] =
      parseDef 9 [⟨TT.letKw, "let"⟩, ⟨TT.ident, "f"⟩, ⟨TT.eq, "="⟩, ⟨TT.ident, "x"⟩]) ∧
    (parseDef 9 [⟨TT.letKw, "let"⟩, ⟨TT.ident, "f"⟩, ⟨TT.lParen, "("⟩, ⟨TT.ident, "x"⟩,
        ⟨TT.rParen, ")"⟩, ⟨TT.eq, "="⟩, ⟨TT.ident, "x"⟩] =
      some (.ok (Def.mk "f" [Pattern.varPattern "x"] (Term.varTerm "x"), []))) := by
  refine ⟨?_, rfl, rfl⟩
  intro f tok nameTok rest v r hnp h
  cases f with
  | zero => simp [parseDef] at h
  | succ f =>
    simp only [parseDef] at h
    split at h
    · simp at h
    · rename_i u1 r1 heq1
      split at h
      · simp at h
      · rename_i nameTok' r2 heq2
        obtain ⟨hts, -⟩ := expect_eq_ok heq1
        injection hts with h1 h2
        subst h1
        subst h2
        obtain ⟨hr1, -⟩ := expect_eq_ok heq2
        injection hr1 with h3 h4
        subst h3
        subst h4
        cases rest with
        | nil => exact (parseDefRest_shape _ _ _ _ _ _ h).2
        | cons t rest' =>
          have ht : t.type ≠ TT.lParen := by simpa using hnp
          simp only at h
          rw [if_neg ht] at h
          exact (parseDefRest_shape _ _ _ _ _ _ h).2

/-- Claim C3 (code bug): the token stream of `match { }` — the match
keyword immediately followed by the clause braces, with zero subject
terms — is accepted by parseMatchTerm, which returns a MatchTerm whose
terms list is empty, although the grammar in the source comment
(`"match" Term+{","}`) and the spec require at least one subject. -/
theorem c3_match_empty_subjects :
    parseMatchTerm 9 [⟨TT.matchKw, "match"⟩, ⟨TT.lCurly, "\x7b"⟩, ⟨TT.rCurly, "\x7d"⟩] =
      some (.ok (Term.matchTerm [] [], [])) := rfl

/-- Claim C5: the cons operator `:` is right-associative in both
grammars: `a : b : c` parses to ConsTerm a (ConsTerm b c) and the
pattern `a : b : c` to ConsPattern a (ConsPattern b c), never the
left-nested shape. -/
theorem c5_cons_right_assoc (a b c : String) :
    parseTerm 9 [⟨TT.ident, a⟩, ⟨TT.colon, ":"⟩, ⟨TT.ident, b⟩, ⟨TT.colon, ":"⟩,
        ⟨TT.ident, c⟩] =
      some (.ok (Term.consTerm (Term.varTerm a)
        (Term.consTerm (Term.varTerm b) (Term.varTerm c)), [])) ∧
    parsePattern 9 [⟨TT.ident, a⟩, ⟨TT.colon, ":"⟩, ⟨TT.ident, b⟩, ⟨TT.colon, ":"⟩,
        ⟨TT.ident, c⟩] =
      some (.ok (Pattern.consPattern (Pattern.varPattern a)
        (Pattern.consPattern (Pattern.varPattern b) (Pattern.varPattern c)), [])) :=
  ⟨rfl, rfl⟩

/-- Claim C4: a bare or quoted atom always parses to a TreeTerm in the
term grammar and a TreePattern in the pattern grammar, whatever
follows; with no parenthesized child list it is the zero-arity tree
node, never a VarTerm or VarPattern. -/
theorem c4_atom_always_tree :
    (∀ (f : Nat) (ts : List Token) (v : Term) (r : List Token) (tok : Token),
      tok.type = TT.bareAtom ∨ tok.type = TT.quotedAtom →
      parseTreeOrVarOrApp f (tok :: ts) = some (.ok (v, r)) →
      ∃ functor children, v = Term.treeTerm functor children) ∧
    (∀ (f : Nat) (ts : List Token) (v : Pattern) (r : List Token) (tok : Token),
      tok.type = TT.bareAtom ∨ tok.type = TT.quotedAtom →
      parseTreePattern f (tok :: ts) = some (.ok (v, r)) →
      ∃ functor children, v = Pattern.treePattern functor children) ∧
    (∀ (f : Nat) (tok : Token) (rest : List Token),
      tok.type = TT.bareAtom ∨ tok.type = TT.quotedAtom →
      rest.head?.map Token.type ≠ some TT.lParen →
      parseTreeOrVarOrApp (f + 1) (tok :: rest) =
        some (.ok (Term.treeTerm
          (if tok.type = TT.quotedAtom then getStringText tok.text else tok.text) [], rest))) ∧
    (∀ (f : Nat) (tok : Token) (rest : List Token),
      tok.type = TT.bareAtom ∨ tok.type = TT.quotedAtom →
      rest.head?.map Token.type ≠ some TT.lParen →
      parseTreePattern (f + 1) (tok :: rest) =
        some (.ok (Pattern.treePattern
          (if tok.type = TT.quotedAtom then getStringText tok.text else tok.text) [], rest))) := by
  refine ⟨?_, ?_, ?_, ?_⟩
  · intro f ts v r tok htype h
    have hni : tok.type ≠ TT.ident := by rcases htype with h1 | h1 <;> simp [h1]
    cases f with
    | zero => simp [parseTreeOrVarOrApp] at h
    | succ f =>
      simp only [parseTreeOrVarOrApp] at h
      split at h
      · simp at h
      · rename_i start r1 heq1
        obtain ⟨hts, -⟩ := expect_eq_ok heq1
        injection hts with h1 h2
        subst h1
        subst h2
        cases ts with
        | nil =>
          simp only [finishTreeOrVarOrApp, if_neg hni] at h
          simp at h
          exact ⟨_, _, h.1.symm⟩
        | cons t rest =>
          simp only at h
          split at h
          · split at h
            · simp at h
            · simp at h
            · rename_i terms r2 heq2
              split at h
              · simp at h
              · rename_i u r3 heq3
                simp only [finishTreeOrVarOrApp, if_neg hni] at h
                simp at h
                exact ⟨_, _, h.1.symm⟩
          · simp only [finishTreeOrVarOrApp, if_neg hni] at h
            simp at h
            exact ⟨_, _, h.1.symm⟩
  · intro f ts v r tok htype h
    cases f with
    | zero => simp [parseTreePattern] at h
    | succ f =>
      simp only [parseTreePattern] at h
      split at h
      · simp at h
      · rename_i start r1 heq1
        obtain ⟨hts, -⟩ := expect_eq_ok heq1
        injection hts with h1 h2
        subst h1
        subst h2
        cases ts with
        | nil =>
          simp at h
          exact ⟨_, _, h.1.symm⟩
        | cons t rest =>
          simp only at h
          split at h
          · split at h
            · simp at h
            · simp at h
            · rename_i children r2 heq2
              split at h
              · simp at h
              · rename_i u r3 heq3
                simp at h
                exact ⟨_, _, h.1.symm⟩
          · simp at h
            exact ⟨_, _, h.1.symm⟩
  · intro f tok rest htype hnp
    cases rest with
    | nil =>
      rcases htype with h | h <;>
        simp [parseTreeOrVarOrApp, expect, finishTreeOrVarOrApp, h]
    | cons t rest' =>
      have ht : t.type ≠ TT.lParen := by simpa using hnp
      rcases htype with h | h <;>
        simp [parseTreeOrVarOrApp, expect, finishTreeOrVarOrApp, h, ht]
  · intro f tok rest htype hnp
    cases rest with
    | nil =>
      rcases htype with h | h <;> simp [parseTreePattern, expect, h]
    | cons t rest' =>
      have ht : t.type ≠ TT.lParen := by simpa using hnp
      rcases htype with h | h <;> simp [parseTreePattern, expect, h, ht]

/-- Claim C6: parseCommaSep returns a possibly-empty list, never
consumes a stop token (on success the remainder is empty or starts
with a stop token, and a leading stop token is left in place), accepts
a single trailing comma before the stop token, and propagates the
element parser's SyntaxError on a leading comma or on two consecutive
commas (where the element parser is invoked on the comma-headed rest
and fails). -/
theorem c6_parseCommaSep_spec :
    (∀ (α : Type) (parseElt : List Token → ParseRes α) (stopSet : List TT) (fuel : Nat)
      (ts : List Token) (es : List α) (r : List Token),
      parseCommaSep parseElt stopSet fuel ts = some (.ok (es, r)) →
      r = [] ∨ ∃ t ts', r = t :: ts' ∧ t.type ∈ stopSet) ∧
    (∀ (α : Type) (parseElt : List Token → ParseRes α) (stopSet : List TT) (fuel : Nat)
      (t : Token) (ts : List Token), t.type ∈ stopSet →
      parseCommaSep parseElt stopSet fuel (t :: ts) = some (.ok ([], t :: ts))) ∧
    (∀ (α : Type) (parseElt : List Token → ParseRes α) (stopSet : List TT) (g : Nat)
      (t0 : Token) (ts0 : List Token) (x : α) (ct s : Token) (rest : List Token),
      t0.type ∉ stopSet → ct.type = TT.comma → TT.comma ∉ stopSet → s.type ∈ stopSet →
      parseElt (t0 :: ts0) = some (.ok (x, ct :: s :: rest)) →
      parseCommaSep parseElt stopSet (g + 1) (t0 :: ts0) = some (.ok ([x], s :: rest))) ∧
    (∀ (α : Type) (parseElt : List Token → ParseRes α) (stopSet : List TT) (fuel : Nat)
      (ct : Token) (ts : List Token) (e : String),
      ct.type = TT.comma → TT.comma ∉ stopSet →
      parseElt (ct :: ts) = some (.error e) →
      parseCommaSep parseElt stopSet fuel (ct :: ts) = some (.error e)) ∧
    (∀ (α : Type) (parseElt : List Token → ParseRes α) (stopSet : List TT) (g : Nat)
      (t0 : Token) (ts0 : List Token) (x : α) (ct ct' : Token) (rest : List Token)
      (e : String),
      t0.type ∉ stopSet → ct.type = TT.comma → ct'.type = TT.comma → TT.comma ∉ stopSet →
      parseElt (t0 :: ts0) = some (.ok (x, ct :: ct' :: rest)) →
      parseElt (ct' :: rest) = some (.error e) →
      parseCommaSep parseElt stopSet (g + 1) (t0 :: ts0) = some (.error e)) := by
  refine ⟨?_, ?_, ?_, ?_, ?_⟩
  · intro α parseElt stopSet fuel ts es r h
    exact parseCommaSep_stop h
  · intro α parseElt stopSet fuel t ts hmem
    simp only [parseCommaSep]
    rw [if_pos hmem]
  · intro α parseElt stopSet g t0 ts0 x ct s rest ht0 hct hcm hs helt
    simp [parseCommaSep, parseCommaSepLoop, ht0, hct, hcm, hs, helt]
  · intro α parseElt stopSet fuel ct ts e hct hcm helt
    simp [parseCommaSep, hct, hcm, helt]
  · intro α parseElt stopSet g t0 ts0 x ct ct' rest e ht0 hct hct' hcm helt1 helt2
    simp [parseCommaSep, parseCommaSepLoop, ht0, hct, hct', hcm, helt1, helt2]

theorem c6_witness :
    parseCommaSep (fun us => parseTerm 9 us) [TT.rParen] 9
        [⟨TT.ident, "a"⟩, ⟨TT.comma, ","⟩, ⟨TT.rParen, ")"⟩] =
      some (.ok ([Term.varTerm "a"], [⟨TT.rParen, ")"⟩])) ∧
    parseCommaSep (fun us => parseTerm 9 us) [TT.rParen] 9
        [⟨TT.comma, ","⟩, ⟨TT.rParen, ")"⟩] = some (.error "expected a term") ∧
    parseCommaSep (fun us => parseTerm 9 us) [TT.rParen] 9
        [⟨TT.ident, "a"⟩, ⟨TT.comma, ","⟩, ⟨TT.comma, ","⟩, ⟨TT.ident, "b"⟩,
          ⟨TT.rParen, ")"⟩] = some (.error "expected a term") ∧
    parseCommaSep (fun us => parseTerm 9 us) [TT.rParen] 9 [⟨TT.rParen, ")"⟩] =
      some (.ok ([], [⟨TT.rParen, ")"⟩])) :=
  ⟨c6_parseCommaSep_spec.2.2.1 _ _ _ 8 _ _ _ _ _ _ (by decide) rfl (by decide) (by decide) rfl,
   c6_parseCommaSep_spec.2.2.2.1 _ _ _ 9 _ _ _ rfl (by decide) rfl,
   c6_parseCommaSep_spec.2.2.2.2 _ _ _ 8 _ _ _ _ _ _ _ (by decide) rfl rfl (by decide) rfl rfl,
   c6_parseCommaSep_spec.2.1 _ _ _ 9 _ _ (by decide)⟩

/-- Claim C7: unescaping strips exactly the surrounding quote
characters, undoes only the escape sequence matching the original
quote style, and leaves every other escape (such as backslash single
quote inside a double-quoted token) untouched. -/
theorem c7_getStringText_spec :
    (∀ (cs : List Char) (q : Char), q = '\'' ∨ q = '\"' → '\\' ∉ cs →
      getStringText ⟨q :: (cs ++ [q])⟩ = ⟨cs⟩) ∧
    getStringText "\"a\\\"b\"" = "a\"b" ∧
    getStringText "'a\\'b'" = "a'b" ∧
    getStringText "\"a\\'b\"" = "a\\'b" := by
  refine ⟨?_, rfl, rfl, rfl⟩
  intro cs q hq hmem
  rcases hq with h | h <;> subst h <;>
    simp [getStringText, replaceEscQuote_of_not_mem _ _ hmem]

theorem c7_witness :
    getStringText ⟨'\'' :: (['a', 'b'] ++ ['\''])⟩ = ⟨['a', 'b']⟩ ∧
    getStringText ⟨'\"' :: (['a', 'b'] ++ ['\"'])⟩ = ⟨['a', 'b']⟩ :=
  ⟨c7_getStringText_spec.1 ['a', 'b'] '\'' (Or.inl rfl) (by decide),
   c7_getStringText_spec.1 ['a', 'b'] '\"' (Or.inr rfl) (by decide)⟩

/-- Claim C8: parseProgram demands a statement terminator after every
item including the last: whenever the final item consumes the rest of
the stream, the parse fails with a SyntaxError at end of input, and on
success the items come back in input order. The end-of-input failure
of expect is modelled from the spec (Lexer, sections 4.1 and 7). -/
theorem c8_program_requires_terminator :
    (∀ (f : Nat) (ts : List Token) (it : Item), ts ≠ [] →
      parseItem f ts = some (.ok (it, [])) →
      parseProgram (f + 1) ts = some (.error "unexpected end of input")) ∧
    (parseProgram 9 [⟨TT.ident, "a"⟩, ⟨TT.colon, ":"⟩, ⟨TT.ident, "b"⟩] =
      some (.error "unexpected end of input")) ∧
    (parseProgram 9 [⟨TT.ident, "a"⟩, ⟨TT.colon, ":"⟩, ⟨TT.ident, "b"⟩, ⟨TT.semi, ";"⟩] =
      some (.ok [Item.termItem (Term.consTerm (Term.varTerm "a") (Term.varTerm "b"))])) ∧
    (parseProgram 9 [⟨TT.ident, "x"⟩, ⟨TT.semi, ";"⟩, ⟨TT.ident, "y"⟩, ⟨TT.semi, ";"⟩] =
      some (.ok [Item.termItem (Term.varTerm "x"), Item.termItem (Term.varTerm "y")])) := by
  refine ⟨?_, rfl, rfl, rfl⟩
  intro f ts it hne h
  cases ts with
  | nil => exact absurd rfl hne
  | cons t rest => simp [parseProgram, h, expect]

theorem c8_witness :
    parseProgram 9 [⟨TT.ident, "a"⟩] = some (.error "unexpected end of input") :=
  c8_program_requires_terminator.1 8 [⟨TT.ident, "a"⟩] (Item.termItem (Term.varTerm "a"))
    (by simp) rfl

/-- Claim C9: parsing is deterministic and total: with fuel
7 * length + 5 parseProgram always returns a result (success or
SyntaxError) on every finite token stream, equal token streams give
equal results, and every parseItem invocation consumes a non-empty
prefix of its input, leaving a strict suffix — tokens are never
revisited. -/
theorem c9_total_deterministic :
    (∀ ts : List Token, ∃ res, parseProgram (7 * ts.length + 5) ts = some res) ∧
    (∀ (f : Nat) (ts ts' : List Token), ts = ts' → parseProgram f ts = parseProgram f ts') ∧
    (∀ (f : Nat) (ts : List Token) (it : Item) (r : List Token),
      parseItem f ts = some (.ok (it, r)) → r <:+ ts ∧ r.length < ts.length) := by
  refine ⟨?_, ?_, ?_⟩
  · intro ts
    exact Option.ne_none_iff_exists'.mp (parseProgram_total ts)
  · intro f ts ts' h
    rw [h]
  · intro f ts it r h
    exact parseItem_consume f ts it r h

theorem c9_witness :
    parseProgram 9 [⟨TT.ident, "x"⟩, ⟨TT.semi, ";"⟩] =
      parseProgram 9 [⟨TT.ident, "x"⟩, ⟨TT.semi, ";"⟩] ∧
    ([(⟨TT.semi, ";"⟩ : Token)] <:+ [(⟨TT.ident, "x"⟩ : Token), ⟨TT.semi, ";"⟩] ∧
      [(⟨TT.semi, ";"⟩ : Token)].length <
        [(⟨TT.ident, "x"⟩ : Token), ⟨TT.semi, ";"⟩].length) :=
  ⟨c9_total_deterministic.2.1 9 _ _ rfl,
   c9_total_deterministic.2.2 9 [⟨TT.ident, "x"⟩, ⟨TT.semi, ";"⟩]
     (Item.termItem (Term.varTerm "x")) [⟨TT.semi, ";"⟩] rfl⟩

/-- Claim C10: the as-binding operator binds looser than the cons
operator on its right: `x@p:q` parses to
AsPattern x (ConsPattern p q), never ConsPattern (AsPattern x p) q,
because parseVarOrAsPattern recurses into the full parsePattern. -/
theorem c10_as_binds_looser_than_cons (x p q : String) :
    parsePattern 9 [⟨TT.ident, x⟩, ⟨TT.amp, "@"⟩, ⟨TT.ident, p⟩, ⟨TT.colon, ":"⟩,
        ⟨TT.ident, q⟩] =
      some (.ok (Pattern.asPattern x
        (Pattern.consPattern (Pattern.varPattern p) (Pattern.varPattern q)), [])) := rfl

theorem c1_witness :
    parseTreeOrVarOrApp 9 [⟨TT.ident, "g"⟩] = some (.ok (Term.varTerm "g", [])) ∧
    (Term.varTerm "f" = Term.varTerm "f" ∨
      ∃ rands, rands ≠ [] ∧ Term.varTerm "f" = Term.appTerm "f" rands) :=
  ⟨c1_ident_dispatch.1 8 ⟨TT.ident, "g"⟩ [] rfl (by simp),
   c1_ident_dispatch.2.1 9 [⟨TT.lParen, "("⟩, ⟨TT.rParen, ")"⟩] (Term.varTerm "f") []
     ⟨TT.ident, "f"⟩ rfl rfl⟩

theorem c2_witness :
    (Def.mk "f" [] (Term.varTerm "x")).patterns = [] :=
  c2_patterns_empty.1 9 ⟨TT.letKw, "let"⟩ ⟨TT.ident, "f"⟩ [⟨TT.eq, "="⟩, ⟨TT.ident, "x"⟩]
    (Def.mk "f" [] (Term.varTerm "x")) [] (by decide) rfl

theorem c4_witness :
    (∃ functor children,
      Term.treeTerm "cons" [Term.treeTerm "1" [], Term.treeTerm "nil" []] =
        Term.treeTerm functor children) ∧
    (∃ functor children, Pattern.treePattern "c" [] = Pattern.treePattern functor children) ∧
    parseTreeOrVarOrApp 9 [⟨TT.bareAtom, "nil"⟩] =
      some (.ok (Term.treeTerm "nil" [], [])) ∧
    parseTreePattern 9 [⟨TT.bareAtom, "nil"⟩] =
      some (.ok (Pattern.treePattern "nil" [], [])) :=
  ⟨c4_atom_always_tree.1 9 [⟨TT.lParen, "("⟩, ⟨TT.bareAtom, "1"⟩, ⟨TT.comma, ","⟩,
      ⟨TT.bareAtom, "nil"⟩, ⟨TT.rParen, ")"⟩]
      (Term.treeTerm "cons" [Term.treeTerm "1" [], Term.treeTerm "nil" []]) []
      ⟨TT.bareAtom, "cons"⟩ (Or.inl rfl) rfl,
   c4_atom_always_tree.2.1 9 [] (Pattern.treePattern "c" []) [] ⟨TT.bareAtom, "c"⟩
     (Or.inl rfl) rfl,
   c4_atom_always_tree.2.2.1 8 ⟨TT.bareAtom, "nil"⟩ [] (Or.inl rfl) (by simp),
   c4_atom_always_tree.2.2.2 8 ⟨TT.bareAtom, "nil"⟩ [] (Or.inl rfl) (by simp)⟩

end Shrub
